import Mathlib

/-!
Shallow embedding of the cargo-multi-check sources (src/main.rs, src/cache.rs,
src/config.rs) together with proofs about the embedded functions.

Modelling conventions:
- Rust `String` is Lean `String`, `Vec<T>` is `List T`.
- `HashMap<String, Vec<String>>` is an association list `DepMap` whose lookup
  (`depsOf`) returns the most recent insertion, like `HashMap::get`.
- `HashSet<String>` values that are only tested for membership are plain lists.
- Progress-bar calls are display-only and are omitted.
-/

namespace MultiCheck

/-- Association-list model of the `HashMap<String, Vec<String>>` dependency map. -/
abbrev DepMap := List (String × List String)

/-- Model of `HashMap::get`: the value of the first (most recent) binding of `f`. -/
def depsOf (m : DepMap) (f : String) : Option (List String) :=
  match m with
  | [] => none
  | (k, v) :: rest => if k = f then some v else depsOf rest f

/-- Model of `HashMap::insert`: rebind `k`, dropping any previous binding. -/
def insertDep (m : DepMap) (k : String) (v : List String) : DepMap :=
  (k, v) :: m.filter (fun kv => kv.1 ≠ k)

/-- The fields of `struct RustProject` that the combination engine reads
(`hash` is recomputed by `projectHash`, paths and configs are I/O-side). -/
structure RustProject where
  features : List String
  extra_features : List String
  dependencies : DepMap

/-- Body of the inner `for j in 0..n` loop of `generate_combinations`:
state is the pair (combo, exclude); `include` in the source is write-only
and is omitted. -/
def stepJ (p : RustProject) (i : Nat) (ce : List String × List String) (j : Nat) :
    List String × List String :=
  if i.testBit j then
    if p.features.getD j "" ∈ ce.2 then ce
    else (ce.1 ++ [p.features.getD j ""],
          ce.2 ++ (depsOf p.dependencies (p.features.getD j "")).getD [])
  else ce

/-- The (combo, exclude) pair built by one iteration of the subset loop. -/
def rawCombo (p : RustProject) (i : Nat) : List String × List String :=
  (List.range p.features.length).foldl (stepJ p i) ([], [])

/-- The `filtered_combo` of the source: combo members not in the exclusion set. -/
def prunedCombo (p : RustProject) (i : Nat) : List String :=
  (rawCombo p i).1.filter (fun f => f ∉ (rawCombo p i).2)

/-- Combinations contributed by subset index `i`: nothing if the filtered
combo is empty, otherwise one extension per extra feature followed by the
filtered combo itself. -/
def combosForIndex (p : RustProject) (i : Nat) : List (List String) :=
  if prunedCombo p i = [] then []
  else (p.extra_features.map (fun e => prunedCombo p i ++ [e])) ++ [prunedCombo p i]

/-- Embedding of `generate_combinations`: the subset loop over `1..(1 << n)`
followed by the extras-only loop. -/
def generate_combinations (p : RustProject) : List (List String) :=
  ((List.range' 1 (2 ^ p.features.length - 1)).map (combosForIndex p)).flatten
    ++ p.extra_features.map (fun e => [e])

/-- The subset of the feature universe selected by the bits of `i`. -/
def subsetCombo (p : RustProject) (i : Nat) : List String :=
  ((List.range p.features.length).filter (fun j => i.testBit j)).map
    (fun j => p.features.getD j "")

/-- Loop invariant: every combo member has all its dependency targets in the
exclusion set, and every exclusion-set member was contributed as a dependency
target of some combo member. -/
def comboInv (p : RustProject) (st : List String × List String) : Prop :=
  (∀ f ∈ st.1, (depsOf p.dependencies f).getD [] ⊆ st.2)
  ∧ (∀ b ∈ st.2, ∃ f ∈ st.1, b ∈ (depsOf p.dependencies f).getD [])

/-!
Embedding of `hash_features`. `DefaultHasher` is `SipHasher13` with zero
keys; `Vec<String>::hash` writes the length as a `write_usize`
(8 little-endian bytes on a 64-bit target) and then, per string, its UTF-8
bytes followed by a single 0xff byte. `hash_features` therefore digests, with
SipHash-1-3, the byte stream `hashInput`: the encoded strict-feature vector
followed by the encoded dependency vector of each strict feature that has an
entry in the dependency map, in strict-feature order.
-/

/-- Truncation to a 64-bit word. -/
def w64 (n : Nat) : Nat := n % 2 ^ 64

/-- Rotate a 64-bit word left by `r` bits. -/
def rotl64 (x r : Nat) : Nat := w64 (x <<< r) ||| (x >>> (64 - r))

/-- The four 64-bit state words of a SipHash hasher. -/
structure SipState where
  v0 : Nat
  v1 : Nat
  v2 : Nat
  v3 : Nat

/-- One SipRound. -/
def sipRound (s : SipState) : SipState :=
  let a0 := w64 (s.v0 + s.v1)
  let a1 := rotl64 s.v1 13
  let b1 := a1 ^^^ a0
  let b0 := rotl64 a0 32
  let a2 := w64 (s.v2 + s.v3)
  let a3 := rotl64 s.v3 16
  let b3 := a3 ^^^ a2
  let c0 := w64 (b0 + b3)
  let c3 := rotl64 b3 21
  let d3 := c3 ^^^ c0
  let b2 := w64 (a2 + b1)
  let c1 := rotl64 b1 17
  let d1 := c1 ^^^ b2
  let c2 := rotl64 b2 32
  ⟨c0, d1, c2, d3⟩

/-- Absorb one 64-bit message word (one round for SipHash-1-3). -/
def compressWord (s : SipState) (m : Nat) : SipState :=
  let s1 : SipState := ⟨s.v0, s.v1, s.v2, s.v3 ^^^ m⟩
  let s2 := sipRound s1
  ⟨s2.v0 ^^^ m, s2.v1, s2.v2, s2.v3⟩

/-- Little-endian word value of at most 8 bytes (first byte least
significant). -/
def leWord (bytes : List Nat) : Nat := bytes.foldr (fun b acc => b + 256 * acc) 0

/-- Split a byte stream into full 8-byte little-endian words and a remainder
of at most 7 bytes. -/
def splitWords : List Nat → List Nat × List Nat
  | b0 :: b1 :: b2 :: b3 :: b4 :: b5 :: b6 :: b7 :: rest =>
    let wr := splitWords rest
    (leWord [b0, b1, b2, b3, b4, b5, b6, b7] :: wr.1, wr.2)
  | l => ([], l)

/-- SipHash-1-3 with zero keys over a byte stream, as computed by
`DefaultHasher::finish` over the bytes written to the hasher. -/
def sipHash13 (msg : List Nat) : Nat :=
  let s0 : SipState :=
    ⟨0x736f6d6570736575, 0x646f72616e646f6d, 0x6c7967656e657261, 0x7465646279746573⟩
  let wr := splitWords msg
  let s1 := wr.1.foldl compressWord s0
  let b := (msg.length % 256) * 72057594037927936 + leWord wr.2
  let s2 := compressWord s1 b
  let s3 : SipState := ⟨s2.v0, s2.v1, s2.v2 ^^^ 0xff, s2.v3⟩
  let s4 := sipRound (sipRound (sipRound s3))
  s4.v0 ^^^ s4.v1 ^^^ s4.v2 ^^^ s4.v3

/-- UTF-8 encoding of one scalar value. -/
def encodeChar (c : Char) : List Nat :=
  if c.toNat < 128 then [c.toNat]
  else if c.toNat < 2048 then [192 + c.toNat / 64, 128 + c.toNat % 64]
  else if c.toNat < 65536 then
    [224 + c.toNat / 4096, 128 + c.toNat / 64 % 64, 128 + c.toNat % 64]
  else
    [240 + c.toNat / 262144, 128 + c.toNat / 4096 % 64,
     128 + c.toNat / 64 % 64, 128 + c.toNat % 64]

/-- The UTF-8 bytes of a string, as written by `String::hash`. -/
def utf8Bytes (s : String) : List Nat := (s.data.map encodeChar).flatten

/-- Bytes written by `String::hash`: the UTF-8 bytes then a 0xff terminator. -/
def encodeStr (s : String) : List Nat := utf8Bytes s ++ [255]

/-- The 8 little-endian bytes of `write_usize` on a 64-bit target. -/
def le64 (n : Nat) : List Nat :=
  [n % 256, n / 256 % 256, n / 65536 % 256, n / 16777216 % 256,
   n / 4294967296 % 256, n / 1099511627776 % 256,
   n / 281474976710656 % 256, n / 72057594037927936 % 256]

/-- Bytes written by `Vec<String>::hash`: length prefix then each string. -/
def encodeVec (l : List String) : List Nat := le64 l.length ++ (l.map encodeStr).flatten

/-- Bytes contributed by `deps.hash` for feature `f`: nothing when the map
has no entry, matching the `if let Some(deps)` in the source. -/
def depBlock (d : DepMap) (f : String) : List Nat :=
  match depsOf d f with
  | some v => encodeVec v
  | none => []

/-- The byte stream fed to the hasher by `hash_features`. -/
def hashInput (features : List String) (d : DepMap) : List Nat :=
  encodeVec features ++ (features.map (depBlock d)).flatten

/-- Embedding of `hash_features`. -/
def hash_features (features : List String) (d : DepMap) : Nat :=
  sipHash13 (hashInput features d)

/-- The `hash` field computed by `RustProject::new`. -/
def projectHash (p : RustProject) : Nat := hash_features p.features p.dependencies

/-- Model of collecting combinations into a `HashSet`: duplicates collapse;
iteration order is not significant downstream. -/
def dedupSet (l : List (List String)) : List (List String) := l.dedup

/-- The cache decision in `main`: reuse the cached combinations only if the
cached fingerprint equals the freshly computed one, otherwise regenerate. -/
def mainCombinations (p : RustProject) (cache : Option (Nat × List (List String))) :
    List (List String) :=
  match cache with
  | some (ch, cc) =>
    if projectHash p = ch then cc else dedupSet (generate_combinations p)
  | none => dedupSet (generate_combinations p)

/-- A string of ASCII characters (every real cargo feature name is one). -/
def asciiStr (s : String) : Prop := ∀ c ∈ s.data, c.toNat < 128

instance (s : String) : Decidable (asciiStr s) := by unfold asciiStr; infer_instance

/-- A feature-name vector whose length fits a `usize` and whose names are
ASCII. -/
def goodVec (l : List String) : Prop := l.length < 2 ^ 64 ∧ ∀ s ∈ l, asciiStr s

instance (l : List String) : Decidable (goodVec l) := by unfold goodVec; infer_instance

/-!
Embedding of src/cache.rs. A file is modeled as its list of lines (the
strings between newline separators, as produced by `BufRead::lines`), with
`none` standing for a failed `File::open`. Rust whitespace handling is
modeled over the ASCII whitespace characters.
-/

/-- ASCII whitespace, modelling `char::is_whitespace` on the characters that
occur in manifests and feature names. -/
def isWs (c : Char) : Bool :=
  c = ' ' || c = '\t' || c = '\n' || c = '\r' || c = '\x0b' || c = '\x0c'

/-- Digit-string value accumulator used by u64 parsing. -/
def parseDigitsVal (l : List Char) : Nat :=
  l.foldl (fun acc c => acc * 10 + (c.toNat - 48)) 0

/-- Model of `u64::from_str` on an optionally plus-signed digit string:
at least one digit, all ASCII digits, value below 2^64. -/
def parseU64Digits (digits : List Char) : Option Nat :=
  if digits = [] then none
  else if digits.all Char.isDigit then
    if parseDigitsVal digits < 2 ^ 64 then some (parseDigitsVal digits) else none
  else none

/-- Strip the optional leading plus sign, then parse the digits. -/
def parseU64Chars (chars : List Char) : Option Nat :=
  if chars.head? = some '+' then parseU64Digits chars.tail else parseU64Digits chars

/-- Model of `line.parse::<u64>()`. -/
def parseU64 (s : String) : Option Nat := parseU64Chars s.data

/-- One decimal digit character. -/
def digitChar (d : Nat) : Char := Char.ofNat (48 + d)

/-- Fuel-driven most-significant-first decimal digit list. -/
def natDigitsAux : Nat → Nat → List Char
  | 0, _ => []
  | fuel + 1, n =>
    if n < 10 then [digitChar n]
    else natDigitsAux fuel (n / 10) ++ [digitChar (n % 10)]

/-- The decimal digits of `n`, most significant first. -/
def natDigits (n : Nat) : List Char := natDigitsAux (n + 1) n

/-- Decimal rendering of a number, as `Display` for u64 prints it. -/
def natRepr (n : Nat) : String := String.mk (natDigits n)

/-- Accumulator scan behind the model of `str::split_whitespace`. -/
def splitWsAux : List Char → List Char → List (List Char)
  | [], acc => if acc = [] then [] else [acc.reverse]
  | c :: rest, acc =>
    if isWs c then
      if acc = [] then splitWsAux rest [] else acc.reverse :: splitWsAux rest []
    else splitWsAux rest (c :: acc)

/-- Model of `line.split_whitespace()` collected into strings. -/
def splitWhitespace (s : String) : List String :=
  (splitWsAux s.data []).map String.mk

/-- Model of `combo.join(" ")` on the character lists of the combination. -/
def joinSpaceChars : List (List Char) → List Char
  | [] => []
  | [w] => w
  | w :: ws => w ++ ' ' :: joinSpaceChars ws

/-- Outcome of `read_cache`: an I/O error from the fallible file operations,
a panic from one of the `unwrap` calls, or the parsed fingerprint and
combination list. -/
inductive ReadCacheResult where
  | ioError : ReadCacheResult
  | panicked : ReadCacheResult
  | ok : Nat → List (List String) → ReadCacheResult
  deriving DecidableEq

/-- Embedding of `read_cache`. An unreadable path (`none`) propagates as an
I/O error through `?`; an empty file makes `lines.next().unwrap()` panic;
a first line that does not parse as u64 makes `.parse().unwrap()` panic;
otherwise every further line is split on whitespace into one combination. -/
def read_cache (file : Option (List String)) : ReadCacheResult :=
  match file with
  | none => ReadCacheResult.ioError
  | some [] => ReadCacheResult.panicked
  | some (first :: rest) =>
    match parseU64 first with
    | none => ReadCacheResult.panicked
    | some h => ReadCacheResult.ok h (rest.map splitWhitespace)

/-- Embedding of `write_cache`: the lines written — the fingerprint in
decimal, then each combination joined with single spaces. -/
def write_cache (hash : Nat) (combinations : List (List String)) : List String :=
  natRepr hash ::
    combinations.map (fun combo => String.mk (joinSpaceChars (combo.map String.data)))

/-!
Embedding of extract_dependencies (src/main.rs). The manifest file is
modeled as its list of lines; the warning side channel is modeled as the
list of offending feature names in emission order, following the diagnostic
sink reading of the design.
-/

/-- Model of str::trim over ASCII whitespace. -/
def trimChars (l : List Char) : List Char :=
  ((l.dropWhile isWs).reverse.dropWhile isWs).reverse

/-- Model of str::trim_start_matches with a single-character pattern. -/
def dropStartMatches (c : Char) (l : List Char) : List Char :=
  l.dropWhile (fun x => x = c)

/-- Model of str::trim_end_matches with a single-character pattern. -/
def dropEndMatches (c : Char) (l : List Char) : List Char :=
  (l.reverse.dropWhile (fun x => x = c)).reverse

/-- Model of trim_matches on the double-quote character. -/
def trimQuotes (l : List Char) : List Char :=
  dropEndMatches '"' (dropStartMatches '"' l)

/-- Accumulator scan behind the model of str::split(','). -/
def splitCommaAux : List Char → List Char → List (List Char)
  | [], acc => [acc.reverse]
  | c :: rest, acc =>
    if c = ',' then acc.reverse :: splitCommaAux rest []
    else splitCommaAux rest (c :: acc)

/-- Model of str::split(','): the comma-separated pieces, empty pieces
included. -/
def splitComma (l : List Char) : List (List Char) := splitCommaAux l []

/-- Parse the dependency-list text right of the equals sign: trim, strip
leading brackets and trailing brackets, split on commas, then trim and
unquote each piece, dropping empty pieces and pieces starting with the
`dep:` marker. -/
def parseDeps (v : List Char) : List String :=
  (splitComma (dropEndMatches ']' (dropStartMatches '[' (trimChars v)))).filterMap
    (fun piece =>
      if trimQuotes (trimChars piece) = [] then none
      else if (trimQuotes (trimChars piece)).take 4 = "dep:".data then none
      else some (String.mk (trimQuotes (trimChars piece))))

/-- Process one features-section line containing an equals sign: take the
trimmed text left of the sign as the feature name, warn when it is neither
a known tested feature nor `default`, then insert its parsed dependency
list (the source inserts unconditionally). -/
def extractLine (features : List String) (m : DepMap) (warns : List String)
    (line : List Char) : DepMap × List String :=
  (insertDep m (String.mk (trimChars (line.takeWhile (fun x => x ≠ '='))))
      (parseDeps ((line.dropWhile (fun x => x ≠ '=')).tail)),
   if String.mk (trimChars (line.takeWhile (fun x => x ≠ '='))) ∉ features
      ∧ String.mk (trimChars (line.takeWhile (fun x => x ≠ '='))) ≠ "default"
   then warns ++ [String.mk (trimChars (line.takeWhile (fun x => x ≠ '=')))]
   else warns)

/-- The line loop of extract_dependencies: enter the section at a line that
trims to `[features]`, stop at the first subsequent line that starts with a
bracket, process lines containing an equals sign, skip the rest. -/
def extractLoop (features : List String) :
    List String → Bool → DepMap → List String → DepMap × List String
  | [], _, m, w => (m, w)
  | line :: rest, inSec, m, w =>
    if trimChars line.data = "[features]".data then extractLoop features rest true m w
    else if inSec then
      if line.data.head? = some '[' then (m, w)
      else if '=' ∈ line.data then
        extractLoop features rest true (extractLine features m w line.data).1
          (extractLine features m w line.data).2
      else extractLoop features rest true m w
    else extractLoop features rest false m w

/-- Embedding of extract_dependencies over the manifest lines and the set
of known (strict and extra) feature names. -/
def extract_dependencies (lines : List String) (features : List String) :
    DepMap × List String :=
  extractLoop features lines false [] []

/-! Lemmas. -/

lemma stepJ_excl_sub (p : RustProject) (i : Nat) (ce : List String × List String)
    (j : Nat) : ce.2 ⊆ (stepJ p i ce j).2 := by
  unfold stepJ
  split
  · split
    · exact fun x hx => hx
    · exact fun x hx => List.mem_append_left _ hx
  · exact fun x hx => hx

lemma stepJ_combo_sub (p : RustProject) (i : Nat) (ce : List String × List String)
    (j : Nat) : ce.1 ⊆ (stepJ p i ce j).1 := by
  unfold stepJ
  split
  · split
    · exact fun x hx => hx
    · exact fun x hx => List.mem_append_left _ hx
  · exact fun x hx => hx

lemma fold_excl_sub (p : RustProject) (i : Nat) (l : List Nat) :
    ∀ st : List String × List String, st.2 ⊆ (List.foldl (stepJ p i) st l).2 := by
  induction l with
  | nil => intro st; exact fun x hx => hx
  | cons j t ih =>
    intro st
    rw [List.foldl_cons]
    exact fun x hx => ih (stepJ p i st j) (stepJ_excl_sub p i st j hx)

lemma fold_combo_sub (p : RustProject) (i : Nat) (l : List Nat) :
    ∀ st : List String × List String, st.1 ⊆ (List.foldl (stepJ p i) st l).1 := by
  induction l with
  | nil => intro st; exact fun x hx => hx
  | cons j t ih =>
    intro st
    rw [List.foldl_cons]
    exact fun x hx => ih (stepJ p i st j) (stepJ_combo_sub p i st j hx)

lemma stepJ_inv (p : RustProject) (i : Nat) (ce : List String × List String)
    (j : Nat) (h : comboInv p ce) : comboInv p (stepJ p i ce j) := by
  unfold stepJ
  split
  · split
    · exact h
    · constructor
      · intro f hf
        rcases List.mem_append.mp hf with hf | hf
        · exact fun x hx => List.mem_append_left _ (h.1 f hf hx)
        · rw [List.mem_singleton.mp hf]
          exact fun x hx => List.mem_append_right _ hx
      · intro b hb
        rcases List.mem_append.mp hb with hb | hb
        · obtain ⟨f, hf, hbf⟩ := h.2 b hb
          exact ⟨f, List.mem_append_left _ hf, hbf⟩
        · exact ⟨p.features.getD j "",
            List.mem_append_right _ (List.mem_singleton_self _), hb⟩
  · exact h

lemma fold_inv (p : RustProject) (i : Nat) (l : List Nat) :
    ∀ st : List String × List String, comboInv p st →
      comboInv p (List.foldl (stepJ p i) st l) := by
  induction l with
  | nil => intro st h; exact h
  | cons j t ih =>
    intro st h
    rw [List.foldl_cons]
    exact ih (stepJ p i st j) (stepJ_inv p i st j h)

lemma rawCombo_inv (p : RustProject) (i : Nat) : comboInv p (rawCombo p i) := by
  unfold rawCombo
  refine fold_inv p i _ _ ⟨?_, ?_⟩
  · intro f hf; exact absurd hf (List.not_mem_nil f)
  · intro b hb; exact absurd hb (List.not_mem_nil b)

/-- A feature selected by subset index `i` ends up either in the combo or in
the exclusion set. -/
lemma fold_covers (p : RustProject) (i : Nat) (l : List Nat) :
    ∀ (st : List String × List String) (f : String),
      (∃ j ∈ l, i.testBit j ∧ p.features.getD j "" = f) →
      f ∈ (List.foldl (stepJ p i) st l).1 ∨ f ∈ (List.foldl (stepJ p i) st l).2 := by
  induction l with
  | nil =>
    rintro st f ⟨j, hj, -⟩
    exact absurd hj (List.not_mem_nil j)
  | cons a t ih =>
    rintro st f ⟨j, hj, hb, hf⟩
    rw [List.foldl_cons]
    rcases List.mem_cons.mp hj with rfl | hjt
    · by_cases hm : p.features.getD j "" ∈ st.2
      · right
        refine fold_excl_sub p i t _ ?_
        have hstep : stepJ p i st j = st := by
          unfold stepJ; rw [if_pos hb, if_pos hm]
        rw [hstep, ← hf]; exact hm
      · left
        refine fold_combo_sub p i t _ ?_
        have hstep : (stepJ p i st j).1 = st.1 ++ [p.features.getD j ""] := by
          unfold stepJ; rw [if_pos hb, if_neg hm]
        rw [hstep, ← hf]
        exact List.mem_append_right _ (List.mem_singleton_self _)
    · exact ih (stepJ p i st a) f ⟨j, hjt, hb, hf⟩

lemma fold_combo_sublist (p : RustProject) (i : Nat) (l : List Nat) :
    ∀ c e : List String, ∃ w,
      (List.foldl (stepJ p i) (c, e) l).1 = c ++ w
      ∧ w.Sublist (l.map (fun j => p.features.getD j "")) := by
  induction l with
  | nil => intro c e; exact ⟨[], by simp, by simp⟩
  | cons j t ih =>
    intro c e
    rw [List.foldl_cons]
    by_cases hb : i.testBit j
    · by_cases hm : p.features.getD j "" ∈ e
      · have hstep : stepJ p i (c, e) j = (c, e) := by
          unfold stepJ; rw [if_pos hb]; exact if_pos hm
        rw [hstep]
        obtain ⟨w, hw, hsub⟩ := ih c e
        exact ⟨w, hw, hsub.trans (List.sublist_cons_self _ _)⟩
      · have hstep : stepJ p i (c, e) j
            = (c ++ [p.features.getD j ""],
               e ++ (depsOf p.dependencies (p.features.getD j "")).getD []) := by
          unfold stepJ; rw [if_pos hb]; exact if_neg hm
        rw [hstep]
        obtain ⟨w, hw, hsub⟩ := ih (c ++ [p.features.getD j ""])
          (e ++ (depsOf p.dependencies (p.features.getD j "")).getD [])
        refine ⟨p.features.getD j "" :: w, ?_, ?_⟩
        · rw [hw, List.append_assoc]; rfl
        · rw [List.map_cons]
          exact hsub.cons₂ _
    · have hstep : stepJ p i (c, e) j = (c, e) := by
        unfold stepJ; exact if_neg hb
      rw [hstep]
      obtain ⟨w, hw, hsub⟩ := ih c e
      exact ⟨w, hw, hsub.trans (List.sublist_cons_self _ _)⟩

lemma range_map_getD (l : List String) :
    (List.range l.length).map (fun j => l.getD j "") = l := by
  induction l with
  | nil => rfl
  | cons a t ih =>
    rw [List.length_cons, List.range_succ_eq_map, List.map_cons, List.map_map]
    have : ((fun j => (a :: t).getD j "") ∘ Nat.succ) = fun j => t.getD j "" := by
      funext j; rfl
    rw [this, ih, List.getD_cons_zero]

lemma rawCombo_sublist (p : RustProject) (i : Nat) :
    (rawCombo p i).1.Sublist p.features := by
  unfold rawCombo
  obtain ⟨w, hw, hsub⟩ := fold_combo_sublist p i (List.range p.features.length) [] []
  rw [hw, List.nil_append]
  rw [range_map_getD p.features] at hsub
  exact hsub

lemma prunedCombo_sublist (p : RustProject) (i : Nat) :
    (prunedCombo p i).Sublist p.features :=
  (List.filter_sublist _).trans (rawCombo_sublist p i)

lemma join_map_singleton {α β : Type} (l : List α) (g : α → β) :
    (l.map (fun a => [g a])).flatten = l.map g := by
  induction l with
  | nil => rfl
  | cons a t ih => simp [ih]

lemma fold_no_deps (p : RustProject) (i : Nat)
    (hd : ∀ f, (depsOf p.dependencies f).getD [] = []) (l : List Nat) :
    ∀ c : List String,
      List.foldl (stepJ p i) (c, []) l
        = (c ++ (l.filter (fun j => i.testBit j)).map (fun j => p.features.getD j ""),
           []) := by
  induction l with
  | nil => intro c; simp
  | cons j t ih =>
    intro c
    rw [List.foldl_cons]
    by_cases hb : i.testBit j
    · have hstep : stepJ p i (c, []) j = (c ++ [p.features.getD j ""], []) := by
        unfold stepJ
        rw [if_pos hb, if_neg (List.not_mem_nil _), hd, List.append_nil]
      rw [hstep, ih]
      simp [List.filter_cons, hb, List.append_assoc]
    · have hstep : stepJ p i (c, []) j = (c, []) := by
        unfold stepJ; exact if_neg hb
      rw [hstep, ih]
      simp [List.filter_cons, hb]

lemma rawCombo_no_deps (p : RustProject) (i : Nat)
    (hd : ∀ f, (depsOf p.dependencies f).getD [] = []) :
    rawCombo p i = (subsetCombo p i, []) := by
  unfold rawCombo subsetCombo
  rw [fold_no_deps p i hd _ [], List.nil_append]

lemma prunedCombo_no_deps (p : RustProject) (i : Nat)
    (hd : ∀ f, (depsOf p.dependencies f).getD [] = []) :
    prunedCombo p i = subsetCombo p i := by
  unfold prunedCombo
  rw [rawCombo_no_deps p i hd]
  simp

lemma exists_testBit (i n : Nat) (h1 : 1 ≤ i) (h2 : i < 2 ^ n) :
    ∃ j ∈ List.range n, i.testBit j := by
  by_contra h
  push_neg at h
  have hz : i = 0 := by
    apply Nat.eq_of_testBit_eq
    intro j
    rw [Nat.zero_testBit]
    by_cases hj : j < n
    · simpa using h j (List.mem_range.mpr hj)
    · exact Nat.testBit_lt_two_pow
        (lt_of_lt_of_le h2 (Nat.pow_le_pow_right (by norm_num) (le_of_not_lt hj)))
  omega

lemma subsetCombo_ne_nil (p : RustProject) {i : Nat} (h1 : 1 ≤ i)
    (h2 : i < 2 ^ p.features.length) : subsetCombo p i ≠ [] := by
  obtain ⟨j, hj, hb⟩ := exists_testBit i p.features.length h1 h2
  unfold subsetCombo
  intro h
  rw [List.map_eq_nil_iff] at h
  have hjm : j ∈ List.filter (fun j => i.testBit j) (List.range p.features.length) :=
    List.mem_filter.mpr ⟨hj, hb⟩
  rw [h] at hjm
  exact List.not_mem_nil j hjm

lemma encodeChar_ascii {c : Char} (h : c.toNat < 128) : encodeChar c = [c.toNat] := by
  unfold encodeChar
  rw [if_pos h]

lemma utf8Bytes_ascii {s : String} (h : asciiStr s) :
    utf8Bytes s = s.data.map Char.toNat := by
  unfold utf8Bytes
  have hm : s.data.map encodeChar = s.data.map (fun c => [c.toNat]) :=
    List.map_congr_left (fun c hc => encodeChar_ascii (h c hc))
  rw [hm, join_map_singleton]

lemma char_toNat_inj {c1 c2 : Char} (h : c1.toNat = c2.toNat) : c1 = c2 := by
  have h1 := Char.ofNat_toNat c1
  have h2 := Char.ofNat_toNat c2
  rw [← h1, ← h2, h]

lemma ascii_utf8_inj {s1 s2 : String} (h1 : asciiStr s1) (h2 : asciiStr s2)
    (h : utf8Bytes s1 = utf8Bytes s2) : s1 = s2 := by
  rw [utf8Bytes_ascii h1, utf8Bytes_ascii h2] at h
  have hd : s1.data = s2.data :=
    List.map_injective_iff.mpr (fun a b hab => char_toNat_inj hab) h
  cases s1
  cases s2
  exact congrArg String.mk hd

lemma utf8Bytes_ne_255 {s : String} (h : asciiStr s) :
    ∀ b ∈ utf8Bytes s, b ≠ 255 := by
  rw [utf8Bytes_ascii h]
  intro b hb
  obtain ⟨c, hc, rfl⟩ := List.mem_map.mp hb
  have := h c hc
  omega

lemma term_cancel : ∀ (a1 a2 r1 r2 : List Nat),
    (∀ b ∈ a1, b ≠ 255) → (∀ b ∈ a2, b ≠ 255) →
    a1 ++ 255 :: r1 = a2 ++ 255 :: r2 → a1 = a2 ∧ r1 = r2 := by
  intro a1
  induction a1 with
  | nil =>
    intro a2 r1 r2 h1 h2 h
    cases a2 with
    | nil => simpa using h
    | cons b t =>
      rw [List.nil_append, List.cons_append] at h
      injection h with hb hr
      exact absurd hb.symm (h2 b (List.mem_cons_self b t))
  | cons a t ih =>
    intro a2 r1 r2 h1 h2 h
    cases a2 with
    | nil =>
      rw [List.cons_append, List.nil_append] at h
      injection h with ha hr
      exact absurd ha (h1 a (List.mem_cons_self a t))
    | cons b t2 =>
      rw [List.cons_append, List.cons_append] at h
      injection h with hab hrest
      obtain ⟨ht, hr⟩ := ih t2 r1 r2 (fun x hx => h1 x (List.mem_cons_of_mem a hx))
        (fun x hx => h2 x (List.mem_cons_of_mem b hx)) hrest
      exact ⟨by rw [hab, ht], hr⟩

lemma encodeStr_cancel {s1 s2 : String} {r1 r2 : List Nat}
    (h1 : asciiStr s1) (h2 : asciiStr s2)
    (h : encodeStr s1 ++ r1 = encodeStr s2 ++ r2) : s1 = s2 ∧ r1 = r2 := by
  unfold encodeStr at h
  rw [List.append_assoc, List.append_assoc] at h
  simp only [List.singleton_append] at h
  obtain ⟨hu, hr⟩ := term_cancel _ _ _ _ (utf8Bytes_ne_255 h1) (utf8Bytes_ne_255 h2) h
  exact ⟨ascii_utf8_inj h1 h2 hu, hr⟩

lemma encBody_cancel : ∀ (F1 F2 : List String) (r1 r2 : List Nat),
    F1.length = F2.length →
    (∀ s ∈ F1, asciiStr s) → (∀ s ∈ F2, asciiStr s) →
    (F1.map encodeStr).flatten ++ r1 = (F2.map encodeStr).flatten ++ r2 →
    F1 = F2 ∧ r1 = r2 := by
  intro F1
  induction F1 with
  | nil =>
    intro F2 r1 r2 hl h1 h2 h
    cases F2 with
    | nil => simpa using h
    | cons b t => simp at hl
  | cons a t ih =>
    intro F2 r1 r2 hl h1 h2 h
    cases F2 with
    | nil => simp at hl
    | cons b t2 =>
      rw [List.map_cons, List.map_cons, List.flatten_cons, List.flatten_cons,
        List.append_assoc, List.append_assoc] at h
      obtain ⟨hs, hrest⟩ := encodeStr_cancel (h1 a (List.mem_cons_self a t))
        (h2 b (List.mem_cons_self b t2)) h
      obtain ⟨ht, hr⟩ := ih t2 r1 r2 (by simpa using hl)
        (fun x hx => h1 x (List.mem_cons_of_mem a hx))
        (fun x hx => h2 x (List.mem_cons_of_mem b hx)) hrest
      exact ⟨by rw [hs, ht], hr⟩

lemma le64_inj {n1 n2 : Nat} (h1 : n1 < 2 ^ 64) (h2 : n2 < 2 ^ 64)
    (h : le64 n1 = le64 n2) : n1 = n2 := by
  have h64 : (2 : Nat) ^ 64 = 18446744073709551616 := by norm_num
  rw [h64] at h1 h2
  unfold le64 at h
  simp only [List.cons.injEq, and_true] at h
  omega

lemma le64_length (n : Nat) : (le64 n).length = 8 := by
  unfold le64
  rfl

lemma encVec_cancel {F1 F2 : List String} {r1 r2 : List Nat}
    (g1 : goodVec F1) (g2 : goodVec F2)
    (h : encodeVec F1 ++ r1 = encodeVec F2 ++ r2) : F1 = F2 ∧ r1 = r2 := by
  unfold encodeVec at h
  rw [List.append_assoc, List.append_assoc] at h
  obtain ⟨hle, hbody⟩ :=
    List.append_inj h ((le64_length F1.length).trans (le64_length F2.length).symm)
  have hl : F1.length = F2.length := le64_inj g1.1 g2.1 hle
  exact encBody_cancel F1 F2 _ _ hl g1.2 g2.2 hbody

lemma depBlock_some {d : DepMap} {f : String} {v : List String}
    (h : depsOf d f = some v) : depBlock d f = encodeVec v := by
  unfold depBlock
  rw [h]

lemma depBlock_none {d : DepMap} {f : String} (h : depsOf d f = none) :
    depBlock d f = [] := by
  unfold depBlock
  rw [h]

lemma hashInput_congr {F : List String} {d1 d2 : DepMap}
    (h : ∀ f ∈ F, depsOf d1 f = depsOf d2 f) :
    hashInput F d1 = hashInput F d2 := by
  unfold hashInput
  congr 1
  congr 1
  refine List.map_congr_left (fun f hf => ?_)
  unfold depBlock
  rw [h f hf]

lemma encodeVec_ne_nil (v : List String) : encodeVec v ≠ [] := by
  unfold encodeVec le64
  simp

lemma digitChar_toNat {d : Nat} (h : d < 10) : (digitChar d).toNat = 48 + d := by
  interval_cases d <;> decide

lemma digitChar_isDigit {d : Nat} (h : d < 10) : (digitChar d).isDigit = true := by
  interval_cases d <;> decide

lemma natDigitsAux_fuel : ∀ f1 f2 n : Nat, n < f1 → n < f2 →
    natDigitsAux f1 n = natDigitsAux f2 n := by
  intro f1
  induction f1 with
  | zero => intro f2 n h1; omega
  | succ f ih =>
    intro f2 n h1 h2
    cases f2 with
    | zero => omega
    | succ f2' =>
      simp only [natDigitsAux]
      by_cases h : n < 10
      · rw [if_pos h, if_pos h]
      · rw [if_neg h, if_neg h]
        have hd : n / 10 < n := Nat.div_lt_self (by omega) (by omega)
        rw [ih f2' (n / 10) (by omega) (by omega)]

lemma natDigits_spec : ∀ n : Nat,
    natDigits n ≠ []
    ∧ (∀ c ∈ natDigits n, c.isDigit = true)
    ∧ ∀ a : Nat, (natDigits n).foldl (fun acc c => acc * 10 + (c.toNat - 48)) a
        = a * 10 ^ (natDigits n).length + n := by
  intro n
  induction n using Nat.strong_induction_on with
  | _ n ih =>
    by_cases h : n < 10
    · have hd : natDigits n = [digitChar n] := by
        unfold natDigits
        simp only [natDigitsAux]
        rw [if_pos h]
      refine ⟨by simp [hd], ?_, ?_⟩
      · intro c hc
        rw [hd] at hc
        rw [List.mem_singleton.mp hc]
        exact digitChar_isDigit h
      · intro a
        rw [hd]
        simp only [List.foldl_cons, List.foldl_nil, digitChar_toNat h,
          List.length_singleton, pow_one]
        omega
    · have hlt : n / 10 < n := Nat.div_lt_self (by omega) (by omega)
      have hd : natDigits n = natDigits (n / 10) ++ [digitChar (n % 10)] := by
        unfold natDigits
        simp only [natDigitsAux]
        rw [if_neg h]
        congr 1
        exact natDigitsAux_fuel n (n / 10 + 1) (n / 10) (by omega) (by omega)
      obtain ⟨ih1, ih2, ih3⟩ := ih (n / 10) hlt
      refine ⟨by simp [hd], ?_, ?_⟩
      · intro c hc
        rw [hd] at hc
        rcases List.mem_append.mp hc with hc | hc
        · exact ih2 c hc
        · rw [List.mem_singleton.mp hc]
          exact digitChar_isDigit (Nat.mod_lt n (by omega))
      · intro a
        rw [hd, List.foldl_append, ih3 a]
        simp only [List.foldl_cons, List.foldl_nil, List.length_append,
          List.length_singleton, digitChar_toNat (Nat.mod_lt n (by omega))]
        have h48 : 48 + n % 10 - 48 = n % 10 := by omega
        rw [h48]
        have hqr : 10 * (n / 10) + n % 10 = n := Nat.div_add_mod n 10
        calc (a * 10 ^ (natDigits (n / 10)).length + n / 10) * 10 + n % 10
            = a * (10 ^ (natDigits (n / 10)).length * 10)
              + (10 * (n / 10) + n % 10) := by ring
          _ = a * 10 ^ ((natDigits (n / 10)).length + 1) + n := by rw [pow_succ, hqr]

lemma parseU64_natRepr {n : Nat} (h : n < 2 ^ 64) : parseU64 (natRepr n) = some n := by
  obtain ⟨hne, hdig, hfold⟩ := natDigits_spec n
  have hplus : (natDigits n).head? ≠ some '+' := by
    cases hd : natDigits n with
    | nil => simp
    | cons c t =>
      have hc : c.isDigit = true := hdig c (by rw [hd]; exact List.mem_cons_self c t)
      simp only [List.head?_cons]
      intro hcon
      injection hcon with hc2
      rw [hc2] at hc
      exact absurd hc (by decide)
  show parseU64Chars (natDigits n) = some n
  unfold parseU64Chars
  rw [if_neg hplus]
  unfold parseU64Digits
  rw [if_neg hne, if_pos (List.all_eq_true.mpr hdig)]
  have hv : parseDigitsVal (natDigits n) = n := by
    unfold parseDigitsVal
    rw [hfold 0]
    simp
  rw [hv, if_pos h]

lemma splitWsAux_word : ∀ (w l acc : List Char),
    (∀ c ∈ w, isWs c = false) →
    splitWsAux (w ++ l) acc = splitWsAux l (w.reverse ++ acc) := by
  intro w
  induction w with
  | nil => intro l acc h; simp
  | cons c t ih =>
    intro l acc h
    have hc : isWs c = false := h c (List.mem_cons_self c t)
    rw [List.cons_append]
    have step : splitWsAux (c :: (t ++ l)) acc = splitWsAux (t ++ l) (c :: acc) := by
      simp only [splitWsAux]
      rw [if_neg (by simp [hc])]
    rw [step, ih l (c :: acc) (fun x hx => h x (List.mem_cons_of_mem c hx))]
    simp [List.reverse_cons, List.append_assoc]

lemma splitWsAux_nil_flush (acc : List Char) (hacc : acc ≠ []) :
    splitWsAux [] acc = [acc.reverse] := by
  simp only [splitWsAux]
  rw [if_neg hacc]

lemma splitWsAux_ws_cons (l acc : List Char) (c : Char)
    (hc : isWs c = true) (hacc : acc ≠ []) :
    splitWsAux (c :: l) acc = acc.reverse :: splitWsAux l [] := by
  simp only [splitWsAux]
  rw [if_pos hc, if_neg hacc]

lemma splitWs_join : ∀ ws : List (List Char),
    (∀ w ∈ ws, w ≠ [] ∧ ∀ c ∈ w, isWs c = false) →
    splitWsAux (joinSpaceChars ws) [] = ws := by
  intro ws
  induction ws with
  | nil => intro h; rfl
  | cons w t ih =>
    intro h
    obtain ⟨hw, hwc⟩ := h w (List.mem_cons_self w t)
    have hwr : w.reverse ≠ [] := by simpa using hw
    cases t with
    | nil =>
      show splitWsAux (joinSpaceChars [w]) [] = [w]
      have hj : joinSpaceChars [w] = w := rfl
      rw [hj]
      have hstep := splitWsAux_word w [] [] hwc
      simp only [List.append_nil] at hstep
      rw [hstep, splitWsAux_nil_flush _ hwr, List.reverse_reverse]
    | cons w2 t2 =>
      show splitWsAux (joinSpaceChars (w :: w2 :: t2)) [] = w :: w2 :: t2
      have hj : joinSpaceChars (w :: w2 :: t2)
          = w ++ ' ' :: joinSpaceChars (w2 :: t2) := rfl
      rw [hj, splitWsAux_word w _ [] hwc, List.append_nil,
        splitWsAux_ws_cons _ _ _ (by decide) hwr, List.reverse_reverse,
        ih (fun x hx => h x (List.mem_cons_of_mem w hx))]

lemma string_mk_data (s : String) : String.mk s.data = s := rfl

lemma string_ne_empty_data {s : String} (h : s ≠ "") : s.data ≠ [] := by
  intro hd
  apply h
  cases s
  exact congrArg String.mk hd

lemma splitWhitespace_join (c : List String)
    (h : ∀ s ∈ c, s ≠ "" ∧ ∀ ch ∈ s.data, isWs ch = false) :
    splitWhitespace (String.mk (joinSpaceChars (c.map String.data))) = c := by
  unfold splitWhitespace
  have hdata : (String.mk (joinSpaceChars (c.map String.data))).data
      = joinSpaceChars (c.map String.data) := rfl
  rw [hdata, splitWs_join (c.map String.data) ?hws]
  case hws =>
    intro w hw
    obtain ⟨s, hs, rfl⟩ := List.mem_map.mp hw
    exact ⟨string_ne_empty_data (h s hs).1, (h s hs).2⟩
  rw [List.map_map]
  have hid : ∀ x ∈ c, (String.mk ∘ String.data) x = id x := fun x _ => rfl
  rw [List.map_congr_left hid, List.map_id]

/-! Claim theorems. -/

/-- C1: with no declared dependencies and no extra features, the generator
produces exactly the 2^n - 1 non-empty subsets, in subset-index order, each
combination equal to its subset. -/
theorem generate_no_deps_powerset (p : RustProject)
    (hx : p.extra_features = [])
    (hd : ∀ f ds, depsOf p.dependencies f = some ds → ds = []) :
    generate_combinations p
      = (List.range' 1 (2 ^ p.features.length - 1)).map (subsetCombo p)
    ∧ (generate_combinations p).length = 2 ^ p.features.length - 1 := by
  have hd' : ∀ f, (depsOf p.dependencies f).getD [] = [] := by
    intro f
    cases h : depsOf p.dependencies f with
    | none => rfl
    | some ds => simpa using hd f ds h
  have hmain : generate_combinations p
      = (List.range' 1 (2 ^ p.features.length - 1)).map (subsetCombo p) := by
    unfold generate_combinations
    rw [hx]
    simp only [List.map_nil, List.append_nil]
    have hcfi : ∀ i ∈ List.range' 1 (2 ^ p.features.length - 1),
        combosForIndex p i = [subsetCombo p i] := by
      intro i hi
      rw [List.mem_range'_1] at hi
      have hpow := Nat.one_le_two_pow (n := p.features.length)
      have h2 : i < 2 ^ p.features.length := by omega
      unfold combosForIndex
      rw [prunedCombo_no_deps p i hd', hx]
      rw [if_neg (subsetCombo_ne_nil p hi.1 h2)]
      rfl
    rw [List.map_congr_left hcfi, join_map_singleton]
  refine ⟨hmain, ?_⟩
  rw [hmain, List.length_map, List.length_range']

/-- Witness for `generate_no_deps_powerset` at a two-feature project with an
empty dependency map. -/
theorem generate_no_deps_powerset_witness :
    (∀ f ds, depsOf ([] : DepMap) f = some ds → ds = [])
    ∧ generate_combinations (RustProject.mk ["a", "b"] [] [])
        = (List.range' 1 (2 ^ 2 - 1)).map (subsetCombo (RustProject.mk ["a", "b"] [] [])) :=
  ⟨fun f ds h => by simp [depsOf] at h,
   (generate_no_deps_powerset (RustProject.mk ["a", "b"] [] []) rfl
      (fun f ds h => by simp [depsOf] at h)).1⟩

/-- C2 (amended): when B is a declared dependency of A, no pruned combination
contains both A and B; and a selected feature missing from the pruned
combination is always a declared dependency target of some feature accepted
during the same scan (an accepted feature may itself be pruned afterwards). -/
theorem pruning_pair_free (p : RustProject) (A B : String)
    (hAB : B ∈ (depsOf p.dependencies A).getD []) :
    (∀ i, ¬ (A ∈ prunedCombo p i ∧ B ∈ prunedCombo p i))
    ∧ (∀ i f, f ∈ subsetCombo p i → f ∉ prunedCombo p i →
        ∃ g ∈ (rawCombo p i).1, f ∈ (depsOf p.dependencies g).getD []) := by
  constructor
  · rintro i ⟨hA, hB⟩
    unfold prunedCombo at hA hB
    have hA' := List.mem_filter.mp hA
    have hB' := List.mem_filter.mp hB
    have hBexcl : B ∈ (rawCombo p i).2 := (rawCombo_inv p i).1 A hA'.1 hAB
    have hBn := hB'.2
    simp only [decide_eq_true_eq] at hBn
    exact hBn hBexcl
  · intro i f hsub hnp
    have hexcl : f ∈ (rawCombo p i).2 := by
      unfold subsetCombo at hsub
      obtain ⟨j, hjf, rfl⟩ := List.mem_map.mp hsub
      have hjm := List.mem_filter.mp hjf
      have hcov := fold_covers p i (List.range p.features.length) ([], [])
        (p.features.getD j "") ⟨j, hjm.1, hjm.2, rfl⟩
      rcases hcov with h1 | h2
      · by_contra hne
        refine hnp (List.mem_filter.mpr ⟨h1, ?_⟩)
        simp only [decide_eq_true_eq]
        exact hne
      · exact h2
    exact (rawCombo_inv p i).2 f hexcl

/-- Witness for `pruning_pair_free`: a depends on b, and subset 3 never keeps
both. -/
theorem pruning_pair_free_witness :
    "b" ∈ (depsOf [("a", ["b"])] "a").getD []
    ∧ ¬ ("a" ∈ prunedCombo (RustProject.mk ["a", "b"] [] [("a", ["b"])]) 3
        ∧ "b" ∈ prunedCombo (RustProject.mk ["a", "b"] [] [("a", ["b"])]) 3) :=
  ⟨by decide,
   (pruning_pair_free (RustProject.mk ["a", "b"] [] [("a", ["b"])]) "a" "b"
      (by decide)).1 3⟩

/-- C2 counterexample: with a depending on c and b depending on a, subset 7
selects c, the surviving combination is ["b"] without c, yet no feature of
that surviving combination lists c as a dependency, refuting the rule that a
feature is pruned only when implied by another feature concurrently present
in the same (final) combination. -/
theorem pruning_only_if_counterexample :
    "c" ∈ subsetCombo (RustProject.mk ["a", "b", "c"] [] [("a", ["c"]), ("b", ["a"])]) 7
    ∧ "c" ∉ prunedCombo (RustProject.mk ["a", "b", "c"] [] [("a", ["c"]), ("b", ["a"])]) 7
    ∧ ∀ g ∈ prunedCombo (RustProject.mk ["a", "b", "c"] [] [("a", ["c"]), ("b", ["a"])]) 7,
        "c" ∉ (depsOf [("a", ["c"]), ("b", ["a"])] g).getD [] := by
  decide

/-- C3: every extra feature E yields, for every surviving pruned combination,
both the combination extended with E and the combination alone in the output,
and the singleton [E] is always in the output. -/
theorem extra_feature_coverage (p : RustProject) (E : String)
    (hE : E ∈ p.extra_features) :
    (∀ i, 1 ≤ i → i < 2 ^ p.features.length → prunedCombo p i ≠ [] →
        (prunedCombo p i ++ [E]) ∈ generate_combinations p
      ∧ prunedCombo p i ∈ generate_combinations p)
    ∧ [E] ∈ generate_combinations p := by
  constructor
  · intro i h1 h2 hfc
    have hi : i ∈ List.range' 1 (2 ^ p.features.length - 1) := by
      rw [List.mem_range'_1]
      have hpow := Nat.one_le_two_pow (n := p.features.length)
      omega
    have hmem : ∀ c ∈ combosForIndex p i, c ∈ generate_combinations p := by
      intro c hc
      unfold generate_combinations
      refine List.mem_append_left _ (List.mem_flatten.mpr ⟨combosForIndex p i, ?_, hc⟩)
      exact List.mem_map_of_mem _ hi
    constructor
    · refine hmem _ ?_
      unfold combosForIndex
      rw [if_neg hfc]
      exact List.mem_append_left _ (List.mem_map_of_mem _ hE)
    · refine hmem _ ?_
      unfold combosForIndex
      rw [if_neg hfc]
      exact List.mem_append_right _ (List.mem_singleton_self _)
  · unfold generate_combinations
    exact List.mem_append_right _ (List.mem_map_of_mem _ hE)

/-- Witness for `extra_feature_coverage` at one strict and one extra feature. -/
theorem extra_feature_coverage_witness :
    "y" ∈ (RustProject.mk ["x"] ["y"] []).extra_features
    ∧ prunedCombo (RustProject.mk ["x"] ["y"] []) 1 ≠ []
    ∧ (prunedCombo (RustProject.mk ["x"] ["y"] []) 1 ++ ["y"])
        ∈ generate_combinations (RustProject.mk ["x"] ["y"] []) :=
  ⟨by decide, by decide,
   ((extra_feature_coverage (RustProject.mk ["x"] ["y"] []) "y" (by decide)).1 1
      (by decide) (by decide) (by decide)).1⟩

/-- C10: for a project whose strict features are distinct and whose extra
features are disjoint from them (true of any project built from a parsed
configuration, whose feature names are distinct map keys), every generated
combination is non-empty and free of duplicate feature names. -/
theorem output_nonempty_nodup (p : RustProject)
    (hf : p.features.Nodup) (hx : ∀ e ∈ p.extra_features, e ∉ p.features) :
    ∀ c ∈ generate_combinations p, c ≠ [] ∧ c.Nodup := by
  intro c hc
  have hpn : ∀ i, (prunedCombo p i).Nodup :=
    fun i => (prunedCombo_sublist p i).nodup hf
  have hps : ∀ i, ∀ x ∈ prunedCombo p i, x ∈ p.features :=
    fun i x hxm => (prunedCombo_sublist p i).subset hxm
  unfold generate_combinations at hc
  rcases List.mem_append.mp hc with h | h
  · obtain ⟨L, hL, hcL⟩ := List.mem_flatten.mp h
    obtain ⟨i, hi, rfl⟩ := List.mem_map.mp hL
    unfold combosForIndex at hcL
    by_cases hfc : prunedCombo p i = []
    · rw [if_pos hfc] at hcL
      exact absurd hcL (List.not_mem_nil c)
    · rw [if_neg hfc] at hcL
      rcases List.mem_append.mp hcL with hcm | hcs
      · obtain ⟨e, he, rfl⟩ := List.mem_map.mp hcm
        refine ⟨by simp, ?_⟩
        refine (hpn i).append (List.nodup_singleton e) ?_
        intro a ha1 ha2
        rw [List.mem_singleton.mp ha2] at ha1
        exact hx e he (hps i e ha1)
      · have hceq : c = prunedCombo p i := List.mem_singleton.mp hcs
        subst hceq
        exact ⟨hfc, hpn i⟩
  · obtain ⟨e, he, rfl⟩ := List.mem_map.mp h
    exact ⟨by simp, List.nodup_singleton e⟩

/-- Witness for `output_nonempty_nodup` at a concrete project and output
member. -/
theorem output_nonempty_nodup_witness :
    (["a"] : List String).Nodup
    ∧ ["a", "e"] ≠ ([] : List String) ∧ (["a", "e"] : List String).Nodup :=
  ⟨by decide,
   output_nonempty_nodup (RustProject.mk ["a"] ["e"] []) (by decide)
      (by decide) ["a", "e"] (by decide)⟩

/-- C4: hash_features reads only the (already sorted) strict-feature list
and the dependency lookup of each strict feature, so two projects agreeing
on those produce the same u64 fingerprint regardless of source ordering. -/
theorem fingerprint_deterministic (f1 f2 : List String) (d1 d2 : DepMap)
    (hf : f1 = f2) (hd : ∀ g ∈ f1, depsOf d1 g = depsOf d2 g) :
    hash_features f1 d1 = hash_features f2 d2 := by
  subst hf
  unfold hash_features
  rw [hashInput_congr hd]

/-- Witness for `fingerprint_deterministic`: two dependency maps listing
their entries in different orders. -/
theorem fingerprint_deterministic_witness :
    (∀ g ∈ ["a"], depsOf [("a", ["x"]), ("z", ["q"])] g
        = depsOf [("z", ["r"]), ("a", ["x"])] g)
    ∧ hash_features ["a"] [("a", ["x"]), ("z", ["q"])]
        = hash_features ["a"] [("z", ["r"]), ("a", ["x"])] :=
  ⟨by decide,
   fingerprint_deterministic ["a"] ["a"] [("a", ["x"]), ("z", ["q"])]
     [("z", ["r"]), ("a", ["x"])] rfl (by decide)⟩

/-- C5 (amended): the fingerprint is a function of the strict features and
their dependency lookups only, so altering an extra feature's dependency
list never changes it (conjunct 1); altering a single strict feature's
dependency list changes the hashed byte stream (conjunct 2); adding,
removing or renaming a strict feature changes the hashed byte stream
(conjunct 3, `hash_features` being the SipHash-1-3 digest of that stream);
and a fingerprint mismatch forces full regeneration of the combination set
(conjunct 4). -/
theorem fingerprint_sensitivity :
    (∀ (F : List String) (d1 d2 : DepMap),
        (∀ f ∈ F, depsOf d1 f = depsOf d2 f) →
        hash_features F d1 = hash_features F d2)
    ∧ (∀ (F : List String) (f : String) (d1 d2 : DepMap),
        F.Nodup → f ∈ F →
        (∀ g ∈ F, g ≠ f → depsOf d1 g = depsOf d2 g) →
        depsOf d1 f ≠ depsOf d2 f →
        (∀ v, depsOf d1 f = some v → goodVec v) →
        (∀ v, depsOf d2 f = some v → goodVec v) →
        hashInput F d1 ≠ hashInput F d2)
    ∧ (∀ (F1 F2 : List String) (d1 d2 : DepMap),
        goodVec F1 → goodVec F2 → F1 ≠ F2 →
        hashInput F1 d1 ≠ hashInput F2 d2)
    ∧ (∀ (p : RustProject) (ch : Nat) (cc : List (List String)),
        projectHash p ≠ ch →
        mainCombinations p (some (ch, cc)) = dedupSet (generate_combinations p)) := by
  refine ⟨?_, ?_, ?_, ?_⟩
  · intro F d1 d2 h
    unfold hash_features
    rw [hashInput_congr h]
  · intro F f d1 d2 hnd hf hothers hne hg1 hg2 heq
    unfold hashInput at heq
    have heq2 := List.append_cancel_left heq
    obtain ⟨P, S, rfl⟩ := List.append_of_mem hf
    have hfPS : f ∉ P ∧ f ∉ S := by
      rw [List.nodup_append] at hnd
      exact ⟨fun hP => hnd.2.2 hP (List.mem_cons_self f S),
             (List.nodup_cons.mp hnd.2.1).1⟩
    rw [List.map_append, List.map_append, List.map_cons, List.map_cons,
      List.flatten_append, List.flatten_append, List.flatten_cons,
      List.flatten_cons] at heq2
    have hP : P.map (depBlock d1) = P.map (depBlock d2) :=
      List.map_congr_left (fun g hg => by
        unfold depBlock
        rw [hothers g (List.mem_append_left _ hg) (fun hgf => hfPS.1 (hgf ▸ hg))])
    have hS : S.map (depBlock d1) = S.map (depBlock d2) :=
      List.map_congr_left (fun g hg => by
        unfold depBlock
        rw [hothers g (List.mem_append_right _ (List.mem_cons_of_mem f hg))
          (fun hgf => hfPS.2 (hgf ▸ hg))])
    rw [hP, hS] at heq2
    have heq3 : depBlock d1 f ++ (S.map (depBlock d2)).flatten
        = depBlock d2 f ++ (S.map (depBlock d2)).flatten :=
      List.append_cancel_left heq2
    cases hd1 : depsOf d1 f with
    | none =>
      cases hd2 : depsOf d2 f with
      | none => exact hne (hd1.trans hd2.symm)
      | some v2 =>
        rw [depBlock_none hd1, depBlock_some hd2, List.nil_append] at heq3
        have hlen := congrArg List.length heq3
        simp only [List.length_append, encodeVec, le64_length] at hlen
        omega
    | some v1 =>
      cases hd2 : depsOf d2 f with
      | none =>
        rw [depBlock_some hd1, depBlock_none hd2, List.nil_append] at heq3
        have hlen := congrArg List.length heq3
        simp only [List.length_append, encodeVec, le64_length] at hlen
        omega
      | some v2 =>
        rw [depBlock_some hd1, depBlock_some hd2] at heq3
        have hv := encVec_cancel (hg1 v1 hd1) (hg2 v2 hd2) heq3
        rw [hd1, hd2, hv.1] at hne
        exact hne rfl
  · intro F1 F2 d1 d2 hg1 hg2 hne heq
    unfold hashInput at heq
    exact hne (encVec_cancel hg1 hg2 heq).1
  · intro p ch cc hne
    show (if projectHash p = ch then cc else dedupSet (generate_combinations p))
        = dedupSet (generate_combinations p)
    exact if_neg hne

/-- Witness for `fingerprint_sensitivity`: renaming the single strict
feature changes the hashed stream. -/
theorem fingerprint_sensitivity_witness :
    goodVec ["a"] ∧ goodVec ["b"]
    ∧ hashInput ["a"] [] ≠ hashInput ["b"] [] :=
  ⟨by decide, by decide,
   fingerprint_sensitivity.2.2.1 ["a"] ["b"] [] [] (by decide) (by decide)
     (by decide)⟩

/-- C5 counterexample: two projects identical except for the dependency list
of the extra (non-strict) feature e have equal fingerprints, because
hash_features folds only strict features' dependency lists. -/
theorem fingerprint_extra_dep_counterexample :
    depsOf (RustProject.mk ["a"] ["e"] [("a", []), ("e", ["x"])]).dependencies "e"
      = some ["x"]
    ∧ depsOf (RustProject.mk ["a"] ["e"] [("a", []), ("e", ["y"])]).dependencies "e"
      = some ["y"]
    ∧ projectHash (RustProject.mk ["a"] ["e"] [("a", []), ("e", ["x"])])
      = projectHash (RustProject.mk ["a"] ["e"] [("a", []), ("e", ["y"])]) := by
  refine ⟨by decide, by decide, ?_⟩
  unfold projectHash hash_features
  rw [@hashInput_congr ["a"] [("a", []), ("e", ["x"])] [("a", []), ("e", ["y"])]
    (by decide)]

/-- C6 counterexample: a readable cache file whose first line is not a valid
u64 makes read_cache panic on the unwrap rather than return an I/O error. -/
theorem read_cache_panic_counterexample :
    read_cache (some ["abc"]) = ReadCacheResult.panicked
    ∧ read_cache (some ["abc"]) ≠ ReadCacheResult.ioError := by
  decide

/-- C6 (amended): read_cache returns an I/O error when the path is
unreadable, but panics (unwrap) when the file is empty or its first line
does not parse as a u64. -/
theorem read_cache_error_modes :
    read_cache none = ReadCacheResult.ioError
    ∧ read_cache (some []) = ReadCacheResult.panicked
    ∧ ∀ first rest, parseU64 first = none →
        read_cache (some (first :: rest)) = ReadCacheResult.panicked := by
  refine ⟨rfl, rfl, ?_⟩
  intro first rest h
  show (match parseU64 first with
        | none => ReadCacheResult.panicked
        | some hh => ReadCacheResult.ok hh (rest.map splitWhitespace))
      = ReadCacheResult.panicked
  rw [h]

/-- Witness for `read_cache_error_modes` at a concrete unparsable line. -/
theorem read_cache_error_modes_witness :
    parseU64 "abc" = none
    ∧ read_cache (some ["abc"]) = ReadCacheResult.panicked :=
  ⟨by decide, read_cache_error_modes.2.2 "abc" [] (by decide)⟩

/-- C7 (amended): for a fingerprint below 2^64 and combinations that are
non-empty lists of non-empty whitespace-free feature names, write_cache
followed by read_cache returns exactly the stored fingerprint and exactly
the stored combinations. -/
theorem cache_roundtrip (hash : Nat) (combos : List (List String))
    (hh : hash < 2 ^ 64)
    (hc : ∀ c ∈ combos, c ≠ [] ∧ ∀ s ∈ c, s ≠ "" ∧ ∀ ch ∈ s.data, isWs ch = false) :
    read_cache (some (write_cache hash combos)) = ReadCacheResult.ok hash combos := by
  unfold write_cache
  show (match parseU64 (natRepr hash) with
        | none => ReadCacheResult.panicked
        | some hh => ReadCacheResult.ok hh
            ((combos.map (fun combo => String.mk (joinSpaceChars (combo.map String.data)))).map
              splitWhitespace))
      = ReadCacheResult.ok hash combos
  rw [parseU64_natRepr hh]
  rw [List.map_map]
  have hrt : ∀ c ∈ combos,
      (splitWhitespace ∘ fun combo => String.mk (joinSpaceChars (combo.map String.data))) c
        = id c := by
    intro c hcm
    exact splitWhitespace_join c (fun s hs => (hc c hcm).2 s hs)
  rw [List.map_congr_left hrt, List.map_id]

/-- Witness for `cache_roundtrip` at a concrete fingerprint and set. -/
theorem cache_roundtrip_witness :
    (7 < 2 ^ 64
      ∧ ∀ c ∈ [["a", "b"], ["c"]], c ≠ []
          ∧ ∀ s ∈ c, s ≠ "" ∧ ∀ ch ∈ s.data, isWs ch = false)
    ∧ read_cache (some (write_cache 7 [["a", "b"], ["c"]]))
        = ReadCacheResult.ok 7 [["a", "b"], ["c"]] :=
  ⟨⟨by decide, by decide⟩,
   cache_roundtrip 7 [["a", "b"], ["c"]] (by decide) (by decide)⟩

/-- C7 counterexample: the combination containing only the empty feature
name (which contains no whitespace characters) does not round-trip: its
line is written empty and reads back as the empty combination. -/
theorem cache_roundtrip_counterexample :
    (∀ c ∈ [[""]], c ≠ [] ∧ ∀ s ∈ c, ∀ ch ∈ s.data, isWs ch = false)
    ∧ read_cache (some (write_cache 0 [[""]])) = ReadCacheResult.ok 0 [[]]
    ∧ ReadCacheResult.ok 0 [[]] ≠ ReadCacheResult.ok 0 [[""]] := by
  refine ⟨by decide, by decide, by decide⟩

/-- C8: a features-section entry whose name is not a known tested feature
produces the warning and extraction continues, but, contrary to the inline
comment saying to skip it, the source inserts the entry anyway, so the
unknown name does become a key of the returned dependency map. -/
theorem extract_unknown_key_bug :
    (extract_dependencies ["[features]", "unknown = []"] ["a"]).2 = ["unknown"]
    ∧ "unknown" ∈ (extract_dependencies ["[features]", "unknown = []"] ["a"]).1.map
        Prod.fst := by
  refine ⟨by decide, by decide⟩

end MultiCheck
